import Mathlib

/-!
Verification development for the celestia-app block square constructor and the
blobstream validator set.

The block square constructor itself (functions estimateSquareSize, prune,
malleateTxs, calculateContigShareCount and the share splitter) is exercised by
the repository's tests but its body is not part of the source tree under
review; those operations are therefore modelled from the specification
(spec.md sections 2 to 4 and 8), with the protocol constants of the share
codec.  The blobstream validator ordering is embedded directly from
x/blobstream/types/validator.go.

Bytes are modelled as natural numbers; byte strings as lists of naturals.
-/

set_option maxRecDepth 8000

namespace Celestia

/-- Modelled from the spec: protocol constant, the byte width of one share. -/
def ShareSize : Nat := 256

/-- Modelled from the spec: protocol constant, the byte width of a namespace
identifier prefixed to every share. -/
def NamespaceSize : Nat := 8

/-- Modelled from the spec: protocol constant, bytes reserved in a compact
share for continuation bookkeeping. -/
def ShareReservedBytes : Nat := 1

/-- Modelled from the spec: usable payload bytes of a compact share. -/
def TxShareSize : Nat := ShareSize - NamespaceSize - ShareReservedBytes

/-- Modelled from the spec: usable payload bytes of a sparse share. -/
def MsgShareSize : Nat := ShareSize - NamespaceSize

/-- Modelled from the spec: the protocol minimum square side length. -/
def MinSquareSize : Nat := 2

/-- Modelled from the spec: the protocol maximum square side length, chosen as
128 so that the set of valid power-of-two sizes has the seven members the spec
describes. -/
def MaxSquareSize : Nat := 128

/-- Ceiling division on naturals: the number of cap-sized groups needed to
hold the given number of bytes. -/
def ceilDiv (a b : Nat) : Nat := (a + b - 1) / b

/-- Modelled from the spec: a blob payload embedded in a wire transaction,
with its namespace identifier. -/
structure Blob where
  ns : Nat
  payload : List Nat
deriving DecidableEq

/-- Modelled from the spec: a parsed transaction.  The field base holds the
bytes that survive malleation (for a blob-carrying transaction this includes
the submitter-declared commitment); the wire form of a blob-carrying
transaction additionally embeds the blob payload.  The priority field records
the fee-derived priority; the input sequence is priority ordered, earlier
means higher priority. -/
structure ParsedTx where
  priority : Nat
  base : List Nat
  blob : Option Blob
deriving DecidableEq

/-- Modelled from the spec: a message detached by malleation, destined for the
sparse region. -/
structure Message where
  ns : Nat
  payload : List Nat
deriving DecidableEq

/-- Modelled from the spec: one share of the square.  Compact shares carry
transaction bytes, sparse shares carry one message's bytes under its
namespace, padding shares carry the reserved padding marker. -/
inductive Share where
  | compact (data : List Nat) : Share
  | sparse (ns : Nat) (data : List Nat) : Share
  | padding : Share
deriving DecidableEq

/-- Byte length of a parsed transaction's embedded blob payload, zero when the
transaction carries no blob. -/
def blobLen : Option Blob → Nat
  | none => 0
  | some b => b.payload.length

/-- Modelled from the spec: the wire size of a parsed transaction, the bytes
kept through malleation plus any embedded blob payload. -/
def rawSize (t : ParsedTx) : Nat := t.base.length + blobLen t.blob

/-- Total compact-region bytes of the parsed sequence, one delimiter symbol
per transaction. -/
def totalTxBytes (txs : List ParsedTx) : Nat := (txs.map (fun t => 1 + rawSize t)).sum

/-- Sparse shares needed by one parsed transaction's blob at the fixed sparse
share capacity, counting the length delimiter. -/
def msgSharesOf (t : ParsedTx) : Nat :=
  match t.blob with
  | none => 0
  | some b => ceilDiv (1 + b.payload.length) MsgShareSize

/-- Sparse shares needed by all blobs of the parsed sequence. -/
def msgShareCount (txs : List ParsedTx) : Nat := (txs.map msgSharesOf).sum

/-- Modelled from the spec: compact-region share count for the parsed
sequence, transactions accounted at their wire size, plus the reserved
evidence share count. -/
def compactShareCount (txs : List ParsedTx) (evd : Nat) : Nat :=
  ceilDiv (totalTxBytes txs) TxShareSize + evd

/-- Modelled from the spec: the estimator's compact-region share count as
exposed to the tests; the square size argument does not change the fixed
compact share capacity. -/
def calculateContigShareCount (txs : List ParsedTx) (evd : Nat) (_s : Nat) : Nat :=
  compactShareCount txs evd

/-- Modelled from the spec: total shares the parsed content requires, compact
region plus sparse region. -/
def requiredShares (txs : List ParsedTx) (evd : Nat) : Nat :=
  compactShareCount txs evd + msgShareCount txs

/-- The valid square sizes: the powers of two from MinSquareSize to
MaxSquareSize in ascending order. -/
def candidateSizes : List Nat := [2, 4, 8, 16, 32, 64, 128]

/-- Modelled from the spec: the square size estimator.  A linear scan from the
smallest valid size upward returns the first size whose capacity is not
exceeded, together with the total shares used; if none suffices it returns
MaxSquareSize with the overflowing total. -/
def estimateSquareSize (txs : List ParsedTx) (evd : Nat) : Nat × Nat :=
  ((candidateSizes.find? (fun s => requiredShares txs evd ≤ s * s)).getD MaxSquareSize,
    requiredShares txs evd)

/-- Modelled from the spec: the pruner.  While the required shares exceed the
candidate capacity, drop the last (lowest-priority) transaction, together with
its embedded blob and that blob's share cost. -/
def prune (txs : List ParsedTx) (evd : Nat) (s : Nat) : List ParsedTx :=
  if requiredShares txs evd ≤ s * s then txs
  else
    match txs with
    | [] => []
    | t :: ts => prune (t :: ts).dropLast evd s
termination_by txs.length
decreasing_by
  simp only [List.length_dropLast_cons, List.length_cons]
  omega

/-- Modelled from the spec: the estimate and prune fixed-point loop of the
constructor, with the spec's hard iteration bound supplied as fuel.  Each
round estimates a square size; if the content fits, the loop returns the size
and the content, otherwise it prunes at the failed candidate size and
re-estimates. -/
def pipeline : Nat → List ParsedTx → Nat → Option (Nat × List ParsedTx)
  | 0, _, _ => none
  | fuel + 1, txs, evd =>
    if requiredShares txs evd ≤ (estimateSquareSize txs evd).1 * (estimateSquareSize txs evd).1 then
      some ((estimateSquareSize txs evd).1, txs)
    else pipeline fuel (prune txs evd (estimateSquareSize txs evd).1) evd

/-- Modelled from the spec: the malleator.  Every blob-carrying transaction is
rewritten to the bytes that carry the commitment in place of the payload, and
its blob is detached as a standalone message; the square size argument fixes
the geometry the commitment is computed against and does not change byte
counts. -/
def malleateTxs (_s : Nat) (txs : List ParsedTx) : List (List Nat) × List Message :=
  (txs.map (fun t => t.base),
    txs.filterMap (fun t => t.blob.map (fun b => Message.mk b.ns b.payload)))

/-- Pad a chunk with zero bytes up to the given capacity. -/
def padTo (cap : Nat) (c : List Nat) : List Nat := c ++ List.replicate (cap - c.length) 0

/-- Cut a byte string into chunks of at most cap bytes, fuelled recursion. -/
def chunkFuel (cap : Nat) : Nat → List Nat → List (List Nat)
  | 0, _ => []
  | _ + 1, [] => []
  | f + 1, a :: l => (a :: l).take cap :: chunkFuel cap f ((a :: l).drop cap)

/-- Cut a byte string into chunks of at most cap bytes. -/
def chunk (cap : Nat) (l : List Nat) : List (List Nat) := chunkFuel cap l.length l

/-- Modelled from the spec: the length-delimited encoding of one transaction
in the compact region. -/
def encodeTx (t : List Nat) : List Nat := t.length :: t

/-- The compact region's byte stream: transactions packed tightly, each
length delimited. -/
def encodeTxList (txs : List (List Nat)) : List Nat := (txs.map encodeTx).flatten

/-- Modelled from the spec: split the finalized transactions into compact
shares, packing tightly and continuing across share boundaries, the last
share padded with zero bytes. -/
def splitTxs (txs : List (List Nat)) : List Share :=
  (chunk TxShareSize (encodeTxList txs)).map (fun c => Share.compact (padTo TxShareSize c))

/-- Modelled from the spec: the length-delimited encoding of one message in
the sparse region. -/
def encodeMsg (m : Message) : List Nat := m.payload.length :: m.payload

/-- Modelled from the spec: split one message into sparse shares under its
namespace; the message starts at a fresh share and its final share is padded
with zero bytes, shared with no other message. -/
def splitMsg (m : Message) : List Share :=
  (chunk MsgShareSize (encodeMsg m)).map (fun c => Share.sparse m.ns (padTo MsgShareSize c))

/-- Modelled from the spec: split all finalized messages, each share aligned. -/
def splitMsgs (msgs : List Message) : List Share := msgs.flatMap splitMsg

/-- The shares actually occupied by the finalized content. -/
def usedShares (txs : List (List Nat)) (msgs : List Message) : Nat :=
  (splitTxs txs).length + (splitMsgs msgs).length

/-- Modelled from the spec: the finalized block data handed to the layout
assembler. -/
structure BlockData where
  squareSize : Nat
  txs : List (List Nat)
  msgs : List Message
deriving DecidableEq

/-- Modelled from the spec: the layout assembler.  When the content fits the
square it emits exactly squareSize * squareSize shares, compact shares first,
then sparse shares, then explicit padding shares; content that cannot fit is
an error, never a partial square. -/
def Split (d : BlockData) : Option (List Share) :=
  if usedShares d.txs d.msgs ≤ d.squareSize * d.squareSize then
    some (splitTxs d.txs ++ splitMsgs d.msgs ++
      List.replicate (d.squareSize * d.squareSize - usedShares d.txs d.msgs) Share.padding)
  else none

/-- Payload of a compact share, none for other kinds. -/
def getCompact : Share → Option (List Nat)
  | Share.compact d => some d
  | _ => none

/-- Namespace and payload of a sparse share, none for other kinds. -/
def getSparse : Share → Option (Nat × List Nat)
  | Share.sparse ns d => some (ns, d)
  | _ => none

/-- Modelled from the spec: read the length-delimited transactions back out of
the compact region's byte stream; a zero delimiter marks the start of the
trailing zero padding. -/
def parseTxData : Nat → List Nat → List (List Nat)
  | 0, _ => []
  | _ + 1, [] => []
  | _ + 1, 0 :: _ => []
  | f + 1, (n + 1) :: rest => rest.take (n + 1) :: parseTxData f (rest.drop (n + 1))

/-- Modelled from the spec: re-parse the finalized transactions from a share
sequence by concatenating the compact share payloads. -/
def parseTxShares (shs : List Share) : List (List Nat) :=
  parseTxData ((shs.filterMap getCompact).flatten).length ((shs.filterMap getCompact).flatten)

/-- Modelled from the spec: re-parse messages from the sparse share payload
sequence: the first share of each message yields its length, which determines
how many following shares belong to it. -/
def parseMsgList : Nat → List (Nat × List Nat) → List Message
  | 0, _ => []
  | _ + 1, [] => []
  | f + 1, (ns, d) :: rest =>
    Message.mk ns
      (((d :: (rest.take (ceilDiv (1 + d.headD 0) MsgShareSize - 1)).map Prod.snd).flatten.drop 1).take
        (d.headD 0)) ::
      parseMsgList f (rest.drop (ceilDiv (1 + d.headD 0) MsgShareSize - 1))

/-- Modelled from the spec: re-parse the finalized messages from a share
sequence using its sparse shares. -/
def parseMsgShares (shs : List Share) : List Message :=
  parseMsgList (shs.filterMap getSparse).length (shs.filterMap getSparse)

/-- Modelled from the spec: the ambient environment of a run, wall clock,
randomness and an iteration-order seed; the constructor may not consult any
of it. -/
structure Env where
  wallClock : Nat
  randSeed : Nat
  mapOrder : List Nat

/-- Modelled from the spec: the whole block square constructor, from parsed
content to the chosen square size and the emitted share sequence, with the
finalized transaction and message lists. -/
def buildBlock (_e : Env) (txs : List ParsedTx) (evd : Nat) :
    Option (Nat × List (List Nat) × List Message × List Share) :=
  match pipeline (txs.length + 1) txs evd with
  | none => none
  | some (s, kept) =>
    match Split (BlockData.mk s (malleateTxs s kept).1 (malleateTxs s kept).2) with
    | none => none
    | some shs => some (s, (malleateTxs s kept).1, (malleateTxs s kept).2, shs)

/-- The scenario transaction of the tests: a plain send transaction, its wire
size fixed at 280 bytes. -/
def sendTx : ParsedTx := ParsedTx.mk 0 (List.replicate 280 1) none

/-- The scenario transaction of the tests: a blob-carrying wire transaction
with the given message size, its non-payload bytes fixed at 500. -/
def pfdTx (m : Nat) : ParsedTx :=
  ParsedTx.mk 0 (List.replicate 500 1) (some (Blob.mk 1 (List.replicate m 2)))

/-- The test scenarios: the blob-carrying transactions followed by the plain
transactions. -/
def scenario (normal pfds msgSize : Nat) : List ParsedTx :=
  List.replicate pfds (pfdTx msgSize) ++ List.replicate normal sendTx

/-- Lexicographic byte-order comparison, the model of bytes.Compare returning
minus one in validator.go. -/
def bytesLt : List Nat → List Nat → Bool
  | _, [] => false
  | [], _ :: _ => true
  | a :: as, b :: bs => if a < b then true else if b < a then false else bytesLt as bs

/-- EVMAddrLessThan from validator.go: byte order on the hex strings of the
two addresses. -/
def EVMAddrLessThan (e o : List Nat) : Bool := bytesLt e o

/-- InternalBridgeValidator from validator.go; the EVM address is carried as
the byte string of its hex form, which is what Sort compares. -/
structure InternalBridgeValidator where
  Power : Nat
  EVMAddressHex : List Nat
deriving DecidableEq

/-- The comparator of InternalBridgeValidators.Sort from validator.go:
by power descending, ties broken by EVM address hex byte order ascending. -/
def validatorLess (a b : InternalBridgeValidator) : Bool :=
  if a.Power == b.Power then EVMAddrLessThan a.EVMAddressHex b.EVMAddressHex
  else decide (b.Power < a.Power)

/-- A validator may precede another in a sorted slice exactly when the
comparator does not order them the other way. -/
def validatorBefore (a b : InternalBridgeValidator) : Prop := validatorLess b a = false

instance : DecidableRel validatorBefore := fun a b => by
  unfold validatorBefore
  infer_instance

/-- InternalBridgeValidators.Sort from validator.go: a comparison sort of the
slice under the validatorLess comparator. -/
def sortValidators (l : List InternalBridgeValidator) : List InternalBridgeValidator :=
  l.insertionSort validatorBefore

/-- The strict adjacent ordering the sorted slice exhibits: strictly greater
power, or equal power and strictly smaller EVM address hex string. -/
def validatorStrictBefore (a b : InternalBridgeValidator) : Prop :=
  b.Power < a.Power ∨ (a.Power = b.Power ∧ bytesLt a.EVMAddressHex b.EVMAddressHex = true)

/-! ### Arithmetic helpers -/

lemma ceilDiv_le_ceilDiv {a b : Nat} (c : Nat) (h : a ≤ b) : ceilDiv a c ≤ ceilDiv b c := by
  unfold ceilDiv
  exact Nat.div_le_div_right (by omega)

lemma ceilDiv_one_le {a c : Nat} (ha : 1 ≤ a) (hc : 1 ≤ c) : 1 ≤ ceilDiv a c := by
  unfold ceilDiv
  have : c * 1 ≤ a + c - 1 := by omega
  calc 1 = c / c := by rw [Nat.div_self hc]
  _ ≤ (a + c - 1) / c := Nat.div_le_div_right (by omega)

lemma ceilDiv_le_iff {a c m : Nat} (hc : 1 ≤ c) : ceilDiv a c ≤ m ↔ a ≤ m * c := by
  unfold ceilDiv
  rw [Nat.div_le_iff_le_mul_add_pred hc, Nat.mul_comm c m]
  omega

/-! ### Counting lemmas -/

lemma totalTxBytes_nil : totalTxBytes [] = 0 := rfl

lemma totalTxBytes_append (l₁ l₂ : List ParsedTx) :
    totalTxBytes (l₁ ++ l₂) = totalTxBytes l₁ + totalTxBytes l₂ := by
  unfold totalTxBytes
  rw [List.map_append, List.sum_append]

lemma totalTxBytes_replicate (n : Nat) (t : ParsedTx) :
    totalTxBytes (List.replicate n t) = n * (1 + rawSize t) := by
  unfold totalTxBytes
  rw [List.map_replicate, List.sum_const_nat]

lemma msgShareCount_nil : msgShareCount [] = 0 := rfl

lemma msgShareCount_append (l₁ l₂ : List ParsedTx) :
    msgShareCount (l₁ ++ l₂) = msgShareCount l₁ + msgShareCount l₂ := by
  unfold msgShareCount
  rw [List.map_append, List.sum_append]

lemma msgShareCount_replicate (n : Nat) (t : ParsedTx) :
    msgShareCount (List.replicate n t) = n * msgSharesOf t := by
  unfold msgShareCount
  rw [List.map_replicate, List.sum_const_nat]

lemma rawSize_sendTx : rawSize sendTx = 280 := by
  show (List.replicate 280 1).length + blobLen none = 280
  rw [List.length_replicate]
  rfl

lemma rawSize_pfdTx (m : Nat) : rawSize (pfdTx m) = 500 + m := by
  show (List.replicate 500 1).length + blobLen (some (Blob.mk 1 (List.replicate m 2))) = 500 + m
  rw [List.length_replicate]
  show 500 + (List.replicate m 2).length = 500 + m
  rw [List.length_replicate]

lemma msgSharesOf_sendTx : msgSharesOf sendTx = 0 := rfl

lemma msgSharesOf_pfdTx (m : Nat) : msgSharesOf (pfdTx m) = ceilDiv (1 + m) MsgShareSize := by
  show ceilDiv (1 + (List.replicate m 2).length) MsgShareSize = ceilDiv (1 + m) MsgShareSize
  rw [List.length_replicate]

lemma requiredShares_scenario (normal pfds m : Nat) :
    requiredShares (scenario normal pfds m) 0 =
      ceilDiv (pfds * (501 + m) + normal * 281) TxShareSize +
        pfds * ceilDiv (1 + m) MsgShareSize := by
  unfold requiredShares compactShareCount scenario
  rw [totalTxBytes_append, msgShareCount_append, totalTxBytes_replicate, totalTxBytes_replicate,
    msgShareCount_replicate, msgShareCount_replicate, rawSize_sendTx, rawSize_pfdTx,
    msgSharesOf_sendTx, msgSharesOf_pfdTx]
  have h1 : 1 + (500 + m) = 501 + m := by omega
  rw [h1]
  simp

lemma requiredShares_nil (evd : Nat) : requiredShares [] evd = evd := by
  unfold requiredShares compactShareCount
  rw [totalTxBytes_nil, msgShareCount_nil]
  have h : ceilDiv 0 TxShareSize = 0 := rfl
  omega

/-! ### Estimator lemmas -/

lemma estimate_snd (txs : List ParsedTx) (evd : Nat) :
    (estimateSquareSize txs evd).2 = requiredShares txs evd := rfl

lemma find_candidate (t : Nat) :
    ((candidateSizes.find? (fun s => t ≤ s * s)).getD MaxSquareSize) =
      if t ≤ 4 then 2 else if t ≤ 16 then 4 else if t ≤ 64 then 8
      else if t ≤ 256 then 16 else if t ≤ 1024 then 32 else if t ≤ 4096 then 64
      else 128 := by
  unfold candidateSizes
  by_cases h1 : t ≤ 4
  · rw [List.find?_cons_of_pos _ (by simpa using h1)]
    simp [h1]
  rw [List.find?_cons_of_neg _ (by simpa using h1)]
  by_cases h2 : t ≤ 16
  · rw [List.find?_cons_of_pos _ (by simpa using h2)]
    simp [h1, h2]
  rw [List.find?_cons_of_neg _ (by simpa using h2)]
  by_cases h3 : t ≤ 64
  · rw [List.find?_cons_of_pos _ (by simpa using h3)]
    simp [h1, h2, h3]
  rw [List.find?_cons_of_neg _ (by simpa using h3)]
  by_cases h4 : t ≤ 256
  · rw [List.find?_cons_of_pos _ (by simpa using h4)]
    simp [h1, h2, h3, h4]
  rw [List.find?_cons_of_neg _ (by simpa using h4)]
  by_cases h5 : t ≤ 1024
  · rw [List.find?_cons_of_pos _ (by simpa using h5)]
    simp [h1, h2, h3, h4, h5]
  rw [List.find?_cons_of_neg _ (by simpa using h5)]
  by_cases h6 : t ≤ 4096
  · rw [List.find?_cons_of_pos _ (by simpa using h6)]
    simp [h1, h2, h3, h4, h5, h6]
  rw [List.find?_cons_of_neg _ (by simpa using h6)]
  by_cases h7 : t ≤ 16384
  · rw [List.find?_cons_of_pos _ (by simpa using h7)]
    simp [h1, h2, h3, h4, h5, h6, MaxSquareSize]
  · rw [List.find?_cons_of_neg _ (by simpa using h7)]
    simp [h1, h2, h3, h4, h5, h6, MaxSquareSize]

lemma estimate_fst (txs : List ParsedTx) (evd : Nat) :
    (estimateSquareSize txs evd).1 =
      if requiredShares txs evd ≤ 4 then 2 else if requiredShares txs evd ≤ 16 then 4
      else if requiredShares txs evd ≤ 64 then 8 else if requiredShares txs evd ≤ 256 then 16
      else if requiredShares txs evd ≤ 1024 then 32 else if requiredShares txs evd ≤ 4096 then 64
      else 128 :=
  find_candidate (requiredShares txs evd)

lemma estimate_mem (txs : List ParsedTx) (evd : Nat) :
    (estimateSquareSize txs evd).1 ∈ candidateSizes := by
  rw [estimate_fst]
  split_ifs <;> simp [candidateSizes]

lemma estimate_fits (txs : List ParsedTx) (evd : Nat)
    (h : requiredShares txs evd ≤ 128 * 128) :
    requiredShares txs evd ≤ (estimateSquareSize txs evd).1 * (estimateSquareSize txs evd).1 := by
  rw [estimate_fst]
  split_ifs <;> omega

lemma estimate_min (txs : List ParsedTx) (evd : Nat) :
    ∀ c ∈ candidateSizes, requiredShares txs evd ≤ c * c → (estimateSquareSize txs evd).1 ≤ c := by
  intro c hc hfit
  have hmem : c = 2 ∨ c = 4 ∨ c = 8 ∨ c = 16 ∨ c = 32 ∨ c = 64 ∨ c = 128 := by
    simpa [candidateSizes] using hc
  rw [estimate_fst]
  split_ifs <;> rcases hmem with h | h | h | h | h | h | h <;> subst h <;> omega

lemma candidate_sq_ge (s : Nat) (hs : s ∈ candidateSizes) : 4 ≤ s * s := by
  have hmem : s = 2 ∨ s = 4 ∨ s = 8 ∨ s = 16 ∨ s = 32 ∨ s = 64 ∨ s = 128 := by
    simpa [candidateSizes] using hs
  rcases hmem with h | h | h | h | h | h | h <;> subst h <;> omega

lemma mem_candidate_iff_pow (s : Nat) :
    s ∈ candidateSizes ↔ ∃ k, s = 2 ^ k ∧ MinSquareSize ≤ s ∧ s ≤ MaxSquareSize := by
  constructor
  · intro hs
    have hmem : s = 2 ∨ s = 4 ∨ s = 8 ∨ s = 16 ∨ s = 32 ∨ s = 64 ∨ s = 128 := by
      simpa [candidateSizes] using hs
    rcases hmem with h | h | h | h | h | h | h <;> subst h
    · exact ⟨1, by norm_num [MinSquareSize, MaxSquareSize]⟩
    · exact ⟨2, by norm_num [MinSquareSize, MaxSquareSize]⟩
    · exact ⟨3, by norm_num [MinSquareSize, MaxSquareSize]⟩
    · exact ⟨4, by norm_num [MinSquareSize, MaxSquareSize]⟩
    · exact ⟨5, by norm_num [MinSquareSize, MaxSquareSize]⟩
    · exact ⟨6, by norm_num [MinSquareSize, MaxSquareSize]⟩
    · exact ⟨7, by norm_num [MinSquareSize, MaxSquareSize]⟩
  · rintro ⟨k, rfl, hlo, hhi⟩
    have hk1 : 1 ≤ k := by
      by_contra hk
      interval_cases k
      · simp [MinSquareSize] at hlo
    have hk7 : k ≤ 7 := by
      have : (2 : Nat) ^ k ≤ 2 ^ 7 := by
        calc (2 : Nat) ^ k ≤ 128 := hhi
        _ = 2 ^ 7 := by norm_num
      exact (Nat.pow_le_pow_iff_right (by norm_num)).mp this
    interval_cases k <;> simp [candidateSizes]

/-! ### Pruner lemmas -/

lemma totalTxBytes_take_le (txs : List ParsedTx) (j : Nat) :
    totalTxBytes (txs.take j) ≤ totalTxBytes txs := by
  conv_rhs => rw [← List.take_append_drop j txs]
  rw [totalTxBytes_append]
  omega

lemma msgShareCount_take_le (txs : List ParsedTx) (j : Nat) :
    msgShareCount (txs.take j) ≤ msgShareCount txs := by
  conv_rhs => rw [← List.take_append_drop j txs]
  rw [msgShareCount_append]
  omega

lemma requiredShares_take_le (txs : List ParsedTx) (evd j : Nat) :
    requiredShares (txs.take j) evd ≤ requiredShares txs evd := by
  unfold requiredShares compactShareCount
  have h1 := totalTxBytes_take_le txs j
  have h2 := msgShareCount_take_le txs j
  have h3 := ceilDiv_le_ceilDiv TxShareSize h1
  omega

lemma prune_eq_take_aux (evd s : Nat) (hevd : evd ≤ s * s) :
    ∀ n (txs : List ParsedTx), txs.length ≤ n →
      ∃ k, k ≤ txs.length ∧ prune txs evd s = txs.take k ∧
        requiredShares (txs.take k) evd ≤ s * s ∧
        ∀ j, j ≤ txs.length → requiredShares (txs.take j) evd ≤ s * s → j ≤ k := by
  intro n
  induction n with
  | zero =>
    intro txs hlen
    have hnil : txs = [] := by
      cases txs with
      | nil => rfl
      | cons t ts => simp at hlen
    subst hnil
    have hfit : requiredShares ([] : List ParsedTx) evd ≤ s * s := by
      rw [requiredShares_nil]
      exact hevd
    refine ⟨0, Nat.le_refl _, ?_, ?_, ?_⟩
    · unfold prune
      rw [if_pos hfit]
      rfl
    · simpa using hfit
    · intro j hj _
      exact hj
  | succ n ih =>
    intro txs hlen
    by_cases hfit : requiredShares txs evd ≤ s * s
    · refine ⟨txs.length, Nat.le_refl _, ?_, ?_, ?_⟩
      · unfold prune
        rw [if_pos hfit, List.take_length]
      · rw [List.take_length]
        exact hfit
      · intro j hj _
        exact hj
    · cases txs with
      | nil =>
        exfalso
        apply hfit
        rw [requiredShares_nil]
        exact hevd
      | cons t ts =>
        have hdl : (t :: ts).dropLast.length ≤ n := by
          simp only [List.length_dropLast_cons]
          simpa using Nat.le_of_succ_le_succ hlen
        obtain ⟨k, hk, heq, hfits, hmax⟩ := ih (t :: ts).dropLast hdl
        have hkt : k ≤ ts.length := by
          simpa using hk
        have htakegen : ∀ i, i ≤ ts.length → (t :: ts).dropLast.take i = (t :: ts).take i := by
          intro i hi
          rw [List.dropLast_eq_take]
          simp only [List.length_cons, Nat.add_sub_cancel, List.take_take]
          congr 1
          omega
        have htake : (t :: ts).dropLast.take k = (t :: ts).take k := htakegen k hkt
        refine ⟨k, ?_, ?_, ?_, ?_⟩
        · simp only [List.length_cons]
          omega
        · unfold prune
          rw [if_neg hfit]
          show prune (t :: ts).dropLast evd s = (t :: ts).take k
          rw [heq, htake]
        · rw [← htake]
          exact hfits
        · intro j hj hjfit
          rcases Nat.lt_or_ge j (t :: ts).length with hlt | hge
          · have hjts : j ≤ ts.length := by
              simp only [List.length_cons] at hlt
              omega
            apply hmax j
            · simp only [List.length_dropLast_cons]
              exact hjts
            · rw [htakegen j hjts]
              exact hjfit
          · exfalso
            apply hfit
            have hall : (t :: ts).take j = t :: ts := List.take_of_length_le (by omega)
            rw [hall] at hjfit
            exact hjfit

lemma prune_eq_take (txs : List ParsedTx) (evd s : Nat) (hevd : evd ≤ s * s) :
    ∃ k, k ≤ txs.length ∧ prune txs evd s = txs.take k ∧
      requiredShares (txs.take k) evd ≤ s * s ∧
      ∀ j, j ≤ txs.length → requiredShares (txs.take j) evd ≤ s * s → j ≤ k :=
  prune_eq_take_aux evd s hevd txs.length txs (Nat.le_refl _)

lemma prune_self_of_fits (txs : List ParsedTx) (evd s : Nat)
    (hfit : requiredShares txs evd ≤ s * s) : prune txs evd s = txs := by
  unfold prune
  rw [if_pos hfit]

/-! ### Pipeline lemmas -/

lemma pipeline_sound (evd : Nat) :
    ∀ fuel (txs : List ParsedTx) s out, pipeline fuel txs evd = some (s, out) →
      s = (estimateSquareSize out evd).1 ∧ requiredShares out evd ≤ s * s := by
  intro fuel
  induction fuel with
  | zero =>
    intro txs s out h
    simp [pipeline] at h
  | succ fuel ih =>
    intro txs s out h
    by_cases hfit :
        requiredShares txs evd ≤ (estimateSquareSize txs evd).1 * (estimateSquareSize txs evd).1
    · simp only [pipeline, if_pos hfit, Option.some.injEq, Prod.mk.injEq] at h
      obtain ⟨hs, hout⟩ := h
      subst hs
      subst hout
      exact ⟨rfl, hfit⟩
    · simp only [pipeline, if_neg hfit] at h
      exact ih _ _ _ h

lemma pipeline_total (evd : Nat) (hevd : evd ≤ 4) :
    ∀ fuel (txs : List ParsedTx), txs.length < fuel → (pipeline fuel txs evd).isSome := by
  intro fuel
  induction fuel with
  | zero =>
    intro txs h
    omega
  | succ fuel ih =>
    intro txs hlen
    by_cases hfit :
        requiredShares txs evd ≤ (estimateSquareSize txs evd).1 * (estimateSquareSize txs evd).1
    · simp [pipeline, if_pos hfit]
    · simp only [pipeline, if_neg hfit]
      have hsq : 4 ≤ (estimateSquareSize txs evd).1 * (estimateSquareSize txs evd).1 :=
        candidate_sq_ge _ (estimate_mem txs evd)
      have hevd' : evd ≤ (estimateSquareSize txs evd).1 * (estimateSquareSize txs evd).1 := by
        omega
      obtain ⟨k, hk, heq, hfits, _⟩ := prune_eq_take txs evd (estimateSquareSize txs evd).1 hevd'
      have hkne : k ≠ txs.length := by
        intro hcontra
        apply hfit
        rw [hcontra, List.take_length] at hfits
        exact hfits
      apply ih
      rw [heq, List.length_take]
      omega

/-! ### Chunking lemmas -/

lemma chunkFuel_nil (cap f : Nat) : chunkFuel cap f [] = [] := by
  cases f <;> rfl

lemma ceilDiv_zero (cap : Nat) : ceilDiv 0 cap = 0 := by
  unfold ceilDiv
  cases cap with
  | zero => rfl
  | succ c => exact Nat.div_eq_of_lt (by omega)

lemma ceilDiv_sub_cap {cap m : Nat} (hcap : 1 ≤ cap) (hm : 1 ≤ m) :
    ceilDiv m cap = ceilDiv (m - cap) cap + 1 := by
  unfold ceilDiv
  rcases Nat.lt_or_ge m (cap + 1) with h | h
  · have h1 : m - cap = 0 := by omega
    have hL : (m + cap - 1) / cap = 1 := Nat.div_eq_of_lt_le (by omega) (by omega)
    have hR : (0 + cap - 1) / cap = 0 := Nat.div_eq_of_lt (by omega)
    rw [h1, hL, hR]
  · have h2 : m + cap - 1 = (m - cap + cap - 1) + cap := by omega
    rw [h2, Nat.add_div_right _ (by omega)]

lemma chunkFuel_length (cap : Nat) (hcap : 1 ≤ cap) :
    ∀ f (l : List Nat), l.length ≤ f → (chunkFuel cap f l).length = ceilDiv l.length cap := by
  intro f
  induction f with
  | zero =>
    intro l hlen
    have hnil : l = [] := by
      cases l with
      | nil => rfl
      | cons a l' => simp at hlen
    subst hnil
    rw [chunkFuel_nil]
    simp [ceilDiv_zero]
  | succ f ih =>
    intro l hlen
    cases l with
    | nil =>
      rw [chunkFuel_nil]
      simp [ceilDiv_zero]
    | cons a l' =>
      show ((a :: l').take cap :: chunkFuel cap f ((a :: l').drop cap)).length =
        ceilDiv (a :: l').length cap
      rw [List.length_cons, ih _ (by rw [List.length_drop]; omega), List.length_drop]
      conv_rhs => rw [ceilDiv_sub_cap hcap (by rw [List.length_cons]; omega)]

lemma chunkFuel_flatten_padded (cap : Nat) (hcap : 1 ≤ cap) :
    ∀ f (l : List Nat), l.length ≤ f →
      ∃ z, ((chunkFuel cap f l).map (padTo cap)).flatten = l ++ List.replicate z 0 := by
  intro f
  induction f with
  | zero =>
    intro l hlen
    refine ⟨0, ?_⟩
    have hnil : l = [] := by
      cases l with
      | nil => rfl
      | cons a l' => simp at hlen
    subst hnil
    rw [chunkFuel_nil]
    rfl
  | succ f ih =>
    intro l hlen
    cases l with
    | nil =>
      refine ⟨0, ?_⟩
      rw [chunkFuel_nil]
      rfl
    | cons a l' =>
      rcases Nat.lt_or_ge (a :: l').length (cap + 1) with hle | hgt
      · have ht : (a :: l').take cap = a :: l' := List.take_of_length_le (by omega)
        have hd : (a :: l').drop cap = [] := List.drop_eq_nil_of_le (by omega)
        refine ⟨cap - (a :: l').length, ?_⟩
        show (((a :: l').take cap :: chunkFuel cap f ((a :: l').drop cap)).map
          (padTo cap)).flatten = _
        rw [ht, hd, chunkFuel_nil]
        show padTo cap (a :: l') ++ [].flatten = (a :: l') ++ List.replicate (cap - (a :: l').length) 0
        rw [List.flatten_nil, List.append_nil]
        rfl
      · have hlt : ((a :: l').take cap).length = cap := by
          rw [List.length_take]
          omega
        have hpad : padTo cap ((a :: l').take cap) = (a :: l').take cap := by
          unfold padTo
          rw [hlt, Nat.sub_self]
          simp
        obtain ⟨z, hz⟩ := ih ((a :: l').drop cap) (by rw [List.length_drop]; omega)
        refine ⟨z, ?_⟩
        show (((a :: l').take cap :: chunkFuel cap f ((a :: l').drop cap)).map
          (padTo cap)).flatten = _
        rw [List.map_cons, List.flatten_cons, hpad, hz, ← List.append_assoc,
          List.take_append_drop]

lemma encodeTxList_length (txs : List (List Nat)) :
    (encodeTxList txs).length = (txs.map (fun t => t.length + 1)).sum := by
  unfold encodeTxList
  induction txs with
  | nil => rfl
  | cons t ts ih =>
    rw [List.map_cons, List.flatten_cons, List.length_append, List.map_cons, List.sum_cons, ih]
    simp [encodeTx]

lemma txShareSize_pos : 1 ≤ TxShareSize := by decide

lemma msgShareSize_pos : 1 ≤ MsgShareSize := by decide

lemma splitTxs_length (txs : List (List Nat)) :
    (splitTxs txs).length = ceilDiv ((txs.map (fun t => t.length + 1)).sum) TxShareSize := by
  unfold splitTxs chunk
  rw [List.length_map, chunkFuel_length TxShareSize txShareSize_pos _ _ (Nat.le_refl _),
    encodeTxList_length]

lemma splitMsg_length (m : Message) :
    (splitMsg m).length = ceilDiv (m.payload.length + 1) MsgShareSize := by
  unfold splitMsg chunk
  rw [List.length_map, chunkFuel_length MsgShareSize msgShareSize_pos _ _ (Nat.le_refl _)]
  simp [encodeMsg]

lemma splitMsgs_length (msgs : List Message) :
    (splitMsgs msgs).length =
      (msgs.map (fun m => ceilDiv (m.payload.length + 1) MsgShareSize)).sum := by
  unfold splitMsgs
  induction msgs with
  | nil => rfl
  | cons m ms ih =>
    rw [List.flatMap_cons, List.length_append, List.map_cons, List.sum_cons, ih, splitMsg_length]

/-! ### The finalized content never outgrows the estimate -/

lemma malleated_compact_le (txs : List ParsedTx) :
    ((txs.map (fun t => t.base)).map (fun t => t.length + 1)).sum ≤ totalTxBytes txs := by
  unfold totalTxBytes
  rw [List.map_map]
  apply List.sum_le_sum
  intro t ht
  show t.base.length + 1 ≤ 1 + rawSize t
  unfold rawSize
  omega

lemma malleated_msgs_count (txs : List ParsedTx) :
    ((txs.filterMap (fun t => t.blob.map (fun b => Message.mk b.ns b.payload))).map
      (fun m => ceilDiv (m.payload.length + 1) MsgShareSize)).sum = msgShareCount txs := by
  unfold msgShareCount
  induction txs with
  | nil => rfl
  | cons t ts ih =>
    cases hb : t.blob with
    | none =>
      simp only [List.filterMap_cons, hb, Option.map_none']
      rw [ih, List.map_cons, List.sum_cons]
      have h0 : msgSharesOf t = 0 := by
        unfold msgSharesOf
        rw [hb]
      rw [h0]
      omega
    | some b =>
      simp only [List.filterMap_cons, hb, Option.map_some']
      rw [List.map_cons, List.sum_cons, ih, List.map_cons, List.sum_cons]
      have hsome : msgSharesOf t = ceilDiv (1 + b.payload.length) MsgShareSize := by
        unfold msgSharesOf
        rw [hb]
      rw [hsome]
      have hc : ceilDiv ((Message.mk b.ns b.payload).payload.length + 1) MsgShareSize =
          ceilDiv (1 + b.payload.length) MsgShareSize := by
        show ceilDiv (b.payload.length + 1) MsgShareSize =
          ceilDiv (1 + b.payload.length) MsgShareSize
        rw [Nat.add_comm]
      rw [hc]

lemma usedShares_malleate_le (txs : List ParsedTx) (evd s : Nat) :
    usedShares (malleateTxs s txs).1 (malleateTxs s txs).2 ≤ requiredShares txs evd := by
  show usedShares (txs.map (fun t => t.base))
    (txs.filterMap (fun t => t.blob.map (fun b => Message.mk b.ns b.payload))) ≤
      requiredShares txs evd
  unfold usedShares requiredShares compactShareCount
  rw [splitTxs_length, splitMsgs_length, malleated_msgs_count]
  have h1 := ceilDiv_le_ceilDiv TxShareSize (malleated_compact_le txs)
  omega

/-! ### Layout assembler lemmas -/

lemma Split_eq_some (d : BlockData) (h : usedShares d.txs d.msgs ≤ d.squareSize * d.squareSize) :
    Split d = some (splitTxs d.txs ++ splitMsgs d.msgs ++
      List.replicate (d.squareSize * d.squareSize - usedShares d.txs d.msgs) Share.padding) := by
  unfold Split
  rw [if_pos h]

lemma splitTxs_all_compact (txs : List (List Nat)) :
    ∀ x ∈ splitTxs txs, ∃ c, x = Share.compact c := by
  unfold splitTxs
  intro x hx
  obtain ⟨c, _, hc⟩ := List.mem_map.mp hx
  exact ⟨padTo TxShareSize c, hc.symm⟩

lemma splitMsgs_all_sparse (msgs : List Message) :
    ∀ x ∈ splitMsgs msgs, ∃ ns c, x = Share.sparse ns c := by
  unfold splitMsgs
  intro x hx
  obtain ⟨m, _, hm⟩ := List.mem_flatMap.mp hx
  unfold splitMsg at hm
  obtain ⟨c, _, hc⟩ := List.mem_map.mp hm
  exact ⟨m.ns, padTo MsgShareSize c, hc.symm⟩

/-! ### Compact-region parser round trip -/

lemma parseTxData_cons (f n : Nat) (l : List Nat) :
    parseTxData (f + 1) ((n + 1) :: l) = l.take (n + 1) :: parseTxData f (l.drop (n + 1)) := by
  rfl

lemma parseTxData_pad (f z : Nat) : parseTxData f (List.replicate z 0) = [] := by
  cases f with
  | zero => rfl
  | succ f' =>
    cases z with
    | zero => rfl
    | succ z' => rfl

lemma parseTxData_roundtrip :
    ∀ (txs : List (List Nat)) (f z : Nat), (∀ t ∈ txs, t ≠ []) → txs.length ≤ f →
      parseTxData f (encodeTxList txs ++ List.replicate z 0) = txs := by
  intro txs
  induction txs with
  | nil =>
    intro f z _ _
    show parseTxData f (List.replicate z 0) = []
    exact parseTxData_pad f z
  | cons t rest ih =>
    intro f z hne hf
    cases f with
    | zero => simp at hf
    | succ f' =>
      have ht : t ≠ [] := hne t (by simp)
      obtain ⟨m, hm⟩ : ∃ m, t.length = m + 1 := by
        cases t with
        | nil => exact absurd rfl ht
        | cons a as => exact ⟨as.length, rfl⟩
      show parseTxData (f' + 1) ((encodeTx t ++ encodeTxList rest) ++ List.replicate z 0) =
        t :: rest
      rw [List.append_assoc]
      have hshape : encodeTx t ++ (encodeTxList rest ++ List.replicate z 0) =
          (m + 1) :: (t ++ (encodeTxList rest ++ List.replicate z 0)) := by
        unfold encodeTx
        rw [hm]
        rfl
      rw [hshape, parseTxData_cons]
      rw [List.take_left' hm, List.drop_left' hm]
      rw [ih f' z (fun x hx => hne x (List.mem_cons_of_mem t hx)) (Nat.le_of_succ_le_succ hf)]

lemma filterMap_getCompact_compact (l : List (List Nat)) (g : List Nat → List Nat) :
    (l.map (fun c => Share.compact (g c))).filterMap getCompact = l.map g := by
  induction l with
  | nil => rfl
  | cons c cs ih =>
    rw [List.map_cons, List.filterMap_cons, List.map_cons]
    show (match getCompact (Share.compact (g c)) with
      | none => (cs.map (fun c => Share.compact (g c))).filterMap getCompact
      | some b => b :: (cs.map (fun c => Share.compact (g c))).filterMap getCompact) = _
    rw [ih]
    rfl

lemma filterMap_getCompact_splitMsgs (msgs : List Message) :
    (splitMsgs msgs).filterMap getCompact = [] := by
  rw [List.filterMap_eq_nil_iff]
  intro x hx
  obtain ⟨ns, c, rfl⟩ := splitMsgs_all_sparse msgs x hx
  rfl

lemma filterMap_getCompact_padding (k : Nat) :
    (List.replicate k Share.padding).filterMap getCompact = [] := by
  rw [List.filterMap_eq_nil_iff]
  intro x hx
  rw [List.eq_of_mem_replicate hx]
  rfl

lemma length_le_delimited_sum (txs : List (List Nat)) :
    txs.length ≤ (txs.map (fun t => t.length + 1)).sum := by
  induction txs with
  | nil => simp
  | cons t ts ih =>
    rw [List.length_cons, List.map_cons, List.sum_cons]
    omega

lemma parseTxShares_layout (txs : List (List Nat)) (msgs : List Message) (pad : Nat)
    (hne : ∀ t ∈ txs, t ≠ []) :
    parseTxShares (splitTxs txs ++ splitMsgs msgs ++ List.replicate pad Share.padding) = txs := by
  unfold parseTxShares
  rw [List.filterMap_append, List.filterMap_append, filterMap_getCompact_splitMsgs,
    filterMap_getCompact_padding, List.append_nil, List.append_nil]
  have hsplit : (splitTxs txs).filterMap getCompact =
      (chunk TxShareSize (encodeTxList txs)).map (padTo TxShareSize) :=
    filterMap_getCompact_compact _ _
  rw [hsplit]
  obtain ⟨z, hz⟩ := chunkFuel_flatten_padded TxShareSize txShareSize_pos
    (encodeTxList txs).length (encodeTxList txs) (Nat.le_refl _)
  show parseTxData (((chunk TxShareSize (encodeTxList txs)).map (padTo TxShareSize)).flatten).length
    (((chunk TxShareSize (encodeTxList txs)).map (padTo TxShareSize)).flatten) = txs
  unfold chunk
  rw [hz]
  apply parseTxData_roundtrip txs _ z hne
  rw [List.length_append, encodeTxList_length]
  have hc := length_le_delimited_sum txs
  omega

/-! ### Sparse-region parser round trip -/

lemma filterMap_getSparse_sparse (l : List (List Nat)) (ns : Nat) (g : List Nat → List Nat) :
    (l.map (fun c => Share.sparse ns (g c))).filterMap getSparse =
      l.map (fun c => (ns, g c)) := by
  induction l with
  | nil => rfl
  | cons c cs ih =>
    rw [List.map_cons, List.filterMap_cons, List.map_cons]
    show (match getSparse (Share.sparse ns (g c)) with
      | none => (cs.map (fun c => Share.sparse ns (g c))).filterMap getSparse
      | some b => b :: (cs.map (fun c => Share.sparse ns (g c))).filterMap getSparse) = _
    rw [ih]
    rfl

lemma filterMap_getSparse_splitTxs (txs : List (List Nat)) :
    (splitTxs txs).filterMap getSparse = [] := by
  rw [List.filterMap_eq_nil_iff]
  intro x hx
  obtain ⟨c, rfl⟩ := splitTxs_all_compact txs x hx
  rfl

lemma filterMap_getSparse_padding (k : Nat) :
    (List.replicate k Share.padding).filterMap getSparse = [] := by
  rw [List.filterMap_eq_nil_iff]
  intro x hx
  rw [List.eq_of_mem_replicate hx]
  rfl

lemma filterMap_getSparse_splitMsgs (msgs : List Message) :
    (splitMsgs msgs).filterMap getSparse =
      msgs.flatMap (fun m => (chunk MsgShareSize (encodeMsg m)).map
        (fun c => (m.ns, padTo MsgShareSize c))) := by
  unfold splitMsgs
  induction msgs with
  | nil => rfl
  | cons m ms ih =>
    rw [List.flatMap_cons, List.flatMap_cons, List.filterMap_append, ih]
    congr 1
    unfold splitMsg
    exact filterMap_getSparse_sparse _ m.ns _

lemma parseMsgList_cons (f ns : Nat) (d : List Nat) (rest : List (Nat × List Nat)) :
    parseMsgList (f + 1) ((ns, d) :: rest) =
      Message.mk ns
        (((d :: (rest.take (ceilDiv (1 + d.headD 0) MsgShareSize - 1)).map
          Prod.snd).flatten.drop 1).take (d.headD 0)) ::
        parseMsgList f (rest.drop (ceilDiv (1 + d.headD 0) MsgShareSize - 1)) := by
  rfl

lemma padTo_headD (cap : Nat) (hcap : 1 ≤ cap) (a : Nat) (l : List Nat) :
    (padTo cap ((a :: l).take cap)).headD 0 = a := by
  cases cap with
  | zero => omega
  | succ c =>
    rw [List.take_succ_cons]
    rfl

lemma parseMsgList_roundtrip :
    ∀ (msgs : List Message) (f : Nat), msgs.length ≤ f →
      parseMsgList f (msgs.flatMap (fun m => (chunk MsgShareSize (encodeMsg m)).map
        (fun c => (m.ns, padTo MsgShareSize c)))) = msgs := by
  intro msgs
  induction msgs with
  | nil =>
    intro f _
    cases f <;> rfl
  | cons m ms ih =>
    intro f hf
    cases f with
    | zero => simp at hf
    | succ f' =>
      obtain ⟨ns, P⟩ := m
      rw [List.flatMap_cons]
      have hchunks : chunk MsgShareSize (encodeMsg (Message.mk ns P)) =
          (P.length :: P).take MsgShareSize ::
            chunkFuel MsgShareSize P.length ((P.length :: P).drop MsgShareSize) := rfl
      rw [hchunks, List.map_cons, List.cons_append, parseMsgList_cons]
      have hhead : (padTo MsgShareSize ((P.length :: P).take MsgShareSize)).headD 0 = P.length :=
        padTo_headD MsgShareSize msgShareSize_pos P.length P
      rw [hhead]
      have hcap := msgShareSize_pos
      have htl : ((chunkFuel MsgShareSize P.length ((P.length :: P).drop MsgShareSize)).map
          (fun c => ((Message.mk ns P).ns, padTo MsgShareSize c))).length =
          ceilDiv (1 + P.length) MsgShareSize - 1 := by
        rw [List.length_map,
          chunkFuel_length MsgShareSize msgShareSize_pos _ _
            (by rw [List.length_drop, List.length_cons]; omega),
          List.length_drop, List.length_cons]
        have h1 : ceilDiv (1 + P.length) MsgShareSize =
            ceilDiv ((1 + P.length) - MsgShareSize) MsgShareSize + 1 :=
          ceilDiv_sub_cap msgShareSize_pos (by omega)
        have h3 : P.length + 1 - MsgShareSize = 1 + P.length - MsgShareSize := by omega
        rw [h3, h1]
        omega
      rw [List.take_left' htl, List.drop_left' htl]
      have hjoin : (padTo MsgShareSize ((P.length :: P).take MsgShareSize) ::
          ((chunkFuel MsgShareSize P.length ((P.length :: P).drop MsgShareSize)).map
            (fun c => ((Message.mk ns P).ns, padTo MsgShareSize c))).map Prod.snd) =
          ((chunkFuel MsgShareSize (P.length :: P).length (P.length :: P)).map
            (padTo MsgShareSize)) := by
        rw [List.map_map]
        rfl
      rw [hjoin]
      obtain ⟨z, hz⟩ := chunkFuel_flatten_padded MsgShareSize msgShareSize_pos
        (P.length :: P).length (P.length :: P) (Nat.le_refl _)
      rw [hz, List.cons_append, List.drop_succ_cons, List.drop_zero, List.take_left' rfl]
      rw [ih f' (Nat.le_of_succ_le_succ (by simpa using hf))]

lemma msgsLen_le_flatMap (msgs : List Message) :
    msgs.length ≤ (msgs.flatMap (fun m => (chunk MsgShareSize (encodeMsg m)).map
      (fun c => (m.ns, padTo MsgShareSize c)))).length := by
  induction msgs with
  | nil => simp
  | cons m ms ih =>
    rw [List.flatMap_cons, List.length_append, List.length_cons, List.length_map]
    have h1 : 1 ≤ (chunk MsgShareSize (encodeMsg m)).length := by
      unfold chunk
      rw [chunkFuel_length MsgShareSize msgShareSize_pos _ _ (Nat.le_refl _)]
      apply ceilDiv_one_le ?_ msgShareSize_pos
      simp [encodeMsg]
    omega

lemma parseMsgShares_layout (txs : List (List Nat)) (msgs : List Message) (pad : Nat) :
    parseMsgShares (splitTxs txs ++ splitMsgs msgs ++ List.replicate pad Share.padding) = msgs := by
  unfold parseMsgShares
  rw [List.filterMap_append, List.filterMap_append, filterMap_getSparse_splitTxs,
    filterMap_getSparse_padding, List.nil_append, List.append_nil, filterMap_getSparse_splitMsgs]
  exact parseMsgList_roundtrip msgs _ (msgsLen_le_flatMap msgs)

/-! ### Byte-order lemmas for the validator comparator -/

lemma bytesLt_cons (a b : Nat) (as bs : List Nat) :
    bytesLt (a :: as) (b :: bs) =
      if a < b then true else if b < a then false else bytesLt as bs := rfl

lemma bytesLt_irrefl : ∀ l : List Nat, bytesLt l l = false := by
  intro l
  induction l with
  | nil => rfl
  | cons a as ih =>
    rw [bytesLt_cons, if_neg (lt_irrefl a), if_neg (lt_irrefl a), ih]

lemma bytesLt_asymm : ∀ x y : List Nat, bytesLt x y = true → bytesLt y x = false := by
  intro x
  induction x with
  | nil =>
    intro y _
    cases y with
    | nil => rfl
    | cons b bs => rfl
  | cons a as ih =>
    intro y hxy
    cases y with
    | nil => exact absurd hxy (by simp [bytesLt])
    | cons b bs =>
      rw [bytesLt_cons] at hxy
      rw [bytesLt_cons]
      by_cases hab : a < b
      · rw [if_neg (show ¬ b < a by omega), if_pos hab]
      · rw [if_neg hab] at hxy
        by_cases hba : b < a
        · rw [if_pos hba] at hxy
          exact absurd hxy (by simp)
        · rw [if_neg hba] at hxy
          rw [if_neg hba, if_neg hab]
          exact ih bs hxy

lemma bytesLt_trans : ∀ x y z : List Nat,
    bytesLt x y = true → bytesLt y z = true → bytesLt x z = true := by
  intro x
  induction x with
  | nil =>
    intro y z hxy hyz
    cases y with
    | nil => exact absurd hxy (by simp [bytesLt])
    | cons b bs =>
      cases z with
      | nil => exact absurd hyz (by simp [bytesLt])
      | cons c cs => rfl
  | cons a as ih =>
    intro y z hxy hyz
    cases y with
    | nil => exact absurd hxy (by simp [bytesLt])
    | cons b bs =>
      cases z with
      | nil => exact absurd hyz (by simp [bytesLt])
      | cons c cs =>
        rw [bytesLt_cons] at hxy hyz
        rw [bytesLt_cons]
        by_cases hab : a < b <;> by_cases hbc : b < c
        · rw [if_pos (by omega)]
        · rw [if_neg hbc] at hyz
          by_cases hcb : c < b
          · rw [if_pos hcb] at hyz
            exact absurd hyz (by simp)
          · rw [if_pos (by omega)]
        · rw [if_neg hab] at hxy
          by_cases hba : b < a
          · rw [if_pos hba] at hxy
            exact absurd hxy (by simp)
          · rw [if_pos (by omega)]
        · rw [if_neg hab] at hxy
          rw [if_neg hbc] at hyz
          by_cases hba : b < a
          · rw [if_pos hba] at hxy
            exact absurd hxy (by simp)
          by_cases hcb : c < b
          · rw [if_pos hcb] at hyz
            exact absurd hyz (by simp)
          rw [if_neg hba] at hxy
          rw [if_neg hcb] at hyz
          rw [if_neg (by omega), if_neg (by omega)]
          exact ih bs cs hxy hyz

lemma bytesLt_total : ∀ x y : List Nat, x ≠ y → bytesLt x y = true ∨ bytesLt y x = true := by
  intro x
  induction x with
  | nil =>
    intro y hne
    cases y with
    | nil => exact absurd rfl hne
    | cons b bs => exact Or.inl rfl
  | cons a as ih =>
    intro y hne
    cases y with
    | nil => exact Or.inr rfl
    | cons b bs =>
      rw [bytesLt_cons, bytesLt_cons]
      by_cases hab : a < b
      · left
        rw [if_pos hab]
      by_cases hba : b < a
      · right
        rw [if_pos hba]
      have heq : a = b := by omega
      subst heq
      have hne' : as ≠ bs := by
        intro hcontra
        exact hne (by rw [hcontra])
      rcases ih bs hne' with h | h
      · left
        rw [if_neg hab, if_neg hab, h]
      · right
        rw [if_neg hab, if_neg hab, h]

/-! ### Comparator characterizations -/

lemma validatorLess_iff (a b : InternalBridgeValidator) :
    validatorLess a b = true ↔
      (b.Power < a.Power ∨
        (a.Power = b.Power ∧ bytesLt a.EVMAddressHex b.EVMAddressHex = true)) := by
  unfold validatorLess EVMAddrLessThan
  by_cases h : a.Power = b.Power
  · rw [if_pos (by simpa using h)]
    constructor
    · intro hb
      exact Or.inr ⟨h, hb⟩
    · rintro (hlt | ⟨_, hb⟩)
      · omega
      · exact hb
  · rw [if_neg (by simpa using h), decide_eq_true_eq]
    constructor
    · exact Or.inl
    · rintro (hlt | ⟨heq, _⟩)
      · exact hlt
      · exact absurd heq h

lemma validatorBefore_iff (a b : InternalBridgeValidator) :
    validatorBefore a b ↔
      (b.Power ≤ a.Power ∧
        (b.Power = a.Power → bytesLt b.EVMAddressHex a.EVMAddressHex = false)) := by
  unfold validatorBefore
  rw [Bool.eq_false_iff, Ne, validatorLess_iff b a]
  constructor
  · intro h
    constructor
    · by_contra hlt
      exact h (Or.inl (by omega))
    · intro heq
      rw [Bool.eq_false_iff, Ne]
      intro hby
      exact h (Or.inr ⟨heq, hby⟩)
  · rintro ⟨hle, himp⟩ (hlt | ⟨heq, hby⟩)
    · omega
    · rw [himp heq] at hby
      exact absurd hby (by simp)

instance : IsTrans InternalBridgeValidator validatorBefore := by
  constructor
  intro a b c hab hbc
  rw [validatorBefore_iff] at hab hbc ⊢
  obtain ⟨hab1, hab2⟩ := hab
  obtain ⟨hbc1, hbc2⟩ := hbc
  refine ⟨by omega, ?_⟩
  intro heq
  have heq1 : b.Power = a.Power := by omega
  have heq2 : c.Power = b.Power := by omega
  have h1 := hab2 heq1
  have h2 := hbc2 heq2
  by_contra hcontra
  have h3 : bytesLt c.EVMAddressHex a.EVMAddressHex = true := by
    cases hx : bytesLt c.EVMAddressHex a.EVMAddressHex with
    | true => rfl
    | false => exact absurd hx hcontra
  by_cases hba : b.EVMAddressHex = a.EVMAddressHex
  · rw [← hba] at h3
    rw [h3] at h2
    exact absurd h2 (by simp)
  · rcases bytesLt_total b.EVMAddressHex a.EVMAddressHex hba with h4 | h4
    · rw [h4] at h1
      exact absurd h1 (by simp)
    · have h5 := bytesLt_trans _ _ _ h3 h4
      rw [h5] at h2
      exact absurd h2 (by simp)

instance : IsTotal InternalBridgeValidator validatorBefore := by
  constructor
  intro a b
  rw [validatorBefore_iff, validatorBefore_iff]
  by_cases hp : a.Power = b.Power
  · by_cases hx : a.EVMAddressHex = b.EVMAddressHex
    · left
      refine ⟨by omega, fun _ => ?_⟩
      rw [hx]
      exact bytesLt_irrefl _
    · rcases bytesLt_total a.EVMAddressHex b.EVMAddressHex hx with h | h
      · left
        exact ⟨by omega, fun _ => bytesLt_asymm _ _ h⟩
      · right
        exact ⟨by omega, fun _ => bytesLt_asymm _ _ h⟩
  · rcases Nat.lt_or_ge a.Power b.Power with h | h
    · right
      exact ⟨by omega, fun heq => absurd heq (by omega)⟩
    · left
      exact ⟨by omega, fun heq => absurd heq (by omega)⟩

instance : IsAntisymm InternalBridgeValidator validatorBefore := by
  constructor
  intro a b hab hba
  rw [validatorBefore_iff] at hab hba
  obtain ⟨hab1, hab2⟩ := hab
  obtain ⟨hba1, hba2⟩ := hba
  have hp : a.Power = b.Power := by omega
  have hx : a.EVMAddressHex = b.EVMAddressHex := by
    by_contra hne
    rcases bytesLt_total a.EVMAddressHex b.EVMAddressHex hne with h | h
    · rw [hba2 hp] at h
      exact absurd h (by simp)
    · rw [hab2 hp.symm] at h
      exact absurd h (by simp)
  cases a with
  | mk pa xa =>
    cases b with
    | mk pb xb =>
      simp only at hp hx
      rw [hp, hx]

instance : IsTrans InternalBridgeValidator validatorStrictBefore := by
  constructor
  intro a b c hab hbc
  unfold validatorStrictBefore at hab hbc ⊢
  rcases hab with h1 | ⟨h1, h1'⟩ <;> rcases hbc with h2 | ⟨h2, h2'⟩
  · exact Or.inl (by omega)
  · exact Or.inl (by omega)
  · exact Or.inl (by omega)
  · exact Or.inr ⟨by omega, bytesLt_trans _ _ _ h1' h2'⟩

lemma validatorStrictBefore_of_before (a b : InternalBridgeValidator)
    (hb : validatorBefore a b) (hne : a.EVMAddressHex ≠ b.EVMAddressHex) :
    validatorStrictBefore a b := by
  rw [validatorBefore_iff] at hb
  obtain ⟨h1, h2⟩ := hb
  unfold validatorStrictBefore
  by_cases hp : a.Power = b.Power
  · right
    refine ⟨hp, ?_⟩
    rcases bytesLt_total a.EVMAddressHex b.EVMAddressHex hne with h | h
    · exact h
    · rw [h2 hp.symm] at h
      exact absurd h (by simp)
  · left
    omega

lemma validatorBefore_of_strict (a b : InternalBridgeValidator)
    (h : validatorStrictBefore a b) : validatorBefore a b := by
  unfold validatorStrictBefore at h
  rw [validatorBefore_iff]
  rcases h with h | ⟨h1, h2⟩
  · exact ⟨by omega, fun heq => absurd heq (by omega)⟩
  · exact ⟨by omega, fun _ => bytesLt_asymm _ _ h2⟩

/-! ### Claim theorems -/

/-- C2: the estimator reproduces the spec's scenario table: an empty block
gives the minimum size 2; ten thousand plain transactions give MaxSquareSize;
one blob transaction with a 400 byte message gives 4, with a 2000 byte message
gives 8, also with ten plain transactions alongside; four 2000 byte blob
transactions give 16. -/
theorem c2_scenario_table :
    (estimateSquareSize (scenario 0 0 0) 0).1 = 2 ∧
    (estimateSquareSize (scenario 10000 0 0) 0).1 = MaxSquareSize ∧
    (estimateSquareSize (scenario 0 1 400) 0).1 = 4 ∧
    (estimateSquareSize (scenario 0 1 2000) 0).1 = 8 ∧
    (estimateSquareSize (scenario 10 1 2000) 0).1 = 8 ∧
    (estimateSquareSize (scenario 0 4 2000) 0).1 = 16 := by
  refine ⟨?_, ?_, ?_, ?_, ?_, ?_⟩ <;>
    rw [estimate_fst, requiredShares_scenario] <;>
    norm_num [ceilDiv, TxShareSize, MsgShareSize, ShareSize, NamespaceSize,
      ShareReservedBytes, MaxSquareSize]

/-- C6: at ten plain transactions plus one blob transaction with a 300 byte
message the occupied share count is exactly one over the capacity of size 4,
and the estimator rounds up to 8 rather than under-provisioning: no valid size
below 8 has enough capacity. -/
theorem c6_boundary_roundup :
    (estimateSquareSize (scenario 10 1 300) 0).1 = 8 ∧
    (estimateSquareSize (scenario 10 1 300) 0).2 = 4 * 4 + 1 ∧
    (∀ c ∈ candidateSizes, c < 8 → ¬ (estimateSquareSize (scenario 10 1 300) 0).2 ≤ c * c) := by
  have hreq : requiredShares (scenario 10 1 300) 0 = 17 := by
    rw [requiredShares_scenario]
    norm_num [ceilDiv, TxShareSize, MsgShareSize, ShareSize, NamespaceSize, ShareReservedBytes]
  refine ⟨?_, ?_, ?_⟩
  · rw [estimate_fst, hreq]
    norm_num
  · rw [estimate_snd, hreq]
  · intro c hc hlt
    rw [estimate_snd, hreq]
    have hmem : c = 2 ∨ c = 4 ∨ c = 8 ∨ c = 16 ∨ c = 32 ∨ c = 64 ∨ c = 128 := by
      simpa [candidateSizes] using hc
    rcases hmem with h | h | h | h | h | h | h <;> subst h <;> omega

/-- C1 (amended): for every pipeline run that succeeds, the returned
SquareSize is a power of two in the range from MinSquareSize to
MaxSquareSize, its square bounds the estimator's totalSharesUsed for the
finalized (post-pruning) content as well as the shares the finalized content
actually occupies after malleation, and it is the smallest power of two in
range whose square bounds the estimator's totalSharesUsed.  (Minimality holds
for the estimator's own share accounting, which prices blob transactions at
their pre-malleation wire size; it fails for the post-malleation occupancy,
see the counterexample.) -/
theorem c1_estimator_bounds (txs : List ParsedTx) (evd fuel s : Nat) (out : List ParsedTx)
    (h : pipeline fuel txs evd = some (s, out)) :
    (∃ k, s = 2 ^ k ∧ MinSquareSize ≤ s ∧ s ≤ MaxSquareSize) ∧
    (estimateSquareSize out evd).2 ≤ s * s ∧
    usedShares (malleateTxs s out).1 (malleateTxs s out).2 ≤ s * s ∧
    (∀ c, (∃ k, c = 2 ^ k) → MinSquareSize ≤ c → c ≤ MaxSquareSize →
      (estimateSquareSize out evd).2 ≤ c * c → s ≤ c) := by
  obtain ⟨hs, hfit⟩ := pipeline_sound evd fuel txs s out h
  refine ⟨?_, ?_, ?_, ?_⟩
  · exact (mem_candidate_iff_pow _).mp (hs ▸ estimate_mem out evd)
  · rw [estimate_snd]
    exact hfit
  · calc usedShares (malleateTxs s out).1 (malleateTxs s out).2
        ≤ requiredShares out evd := usedShares_malleate_le out evd s
    _ ≤ s * s := hfit
  · intro c hc1 hc2 hc3 hreq
    rw [estimate_snd] at hreq
    obtain ⟨k, hk⟩ := hc1
    have hcmem : c ∈ candidateSizes := (mem_candidate_iff_pow c).mpr ⟨k, hk, hc2, hc3⟩
    rw [hs]
    exact estimate_min out evd c hcmem hreq

/-- Witness for C1: a concrete successful run, one blob transaction carrying a
400 byte message, on which the amended claim's conclusions are produced by the
theorem. -/
theorem c1_estimator_bounds_witness :
    pipeline 1 (scenario 0 1 400) 0 = some (4, scenario 0 1 400) ∧
    ((∃ k, (4 : Nat) = 2 ^ k ∧ MinSquareSize ≤ 4 ∧ 4 ≤ MaxSquareSize) ∧
      (estimateSquareSize (scenario 0 1 400) 0).2 ≤ 4 * 4 ∧
      usedShares (malleateTxs 4 (scenario 0 1 400)).1 (malleateTxs 4 (scenario 0 1 400)).2 ≤
        4 * 4 ∧
      (∀ c, (∃ k, c = 2 ^ k) → MinSquareSize ≤ c → c ≤ MaxSquareSize →
        (estimateSquareSize (scenario 0 1 400) 0).2 ≤ c * c → 4 ≤ c)) := by
  have hreq : requiredShares (scenario 0 1 400) 0 = 6 := by
    rw [requiredShares_scenario]
    norm_num [ceilDiv, TxShareSize, MsgShareSize, ShareSize, NamespaceSize, ShareReservedBytes]
  have hfst : (estimateSquareSize (scenario 0 1 400) 0).1 = 4 := by
    rw [estimate_fst, hreq]
    norm_num
  have hrun : pipeline 1 (scenario 0 1 400) 0 = some (4, scenario 0 1 400) := by
    simp only [pipeline, hfst, hreq]
    norm_num
  exact ⟨hrun, c1_estimator_bounds (scenario 0 1 400) 0 1 4 (scenario 0 1 400) hrun⟩

/-- Counterexample to C1 as stated: with one blob transaction carrying a
2000 byte message the pipeline returns square size 8, but the finalized
content after malleation occupies only 12 shares, and the smaller valid power
of two 4 already satisfies 4 * 4 ≥ 12 — so the returned size is not the
smallest power of two whose square bounds the shares consumed by the
finalized content. -/
theorem c1_counterexample :
    pipeline 1 (scenario 0 1 2000) 0 = some (8, scenario 0 1 2000) ∧
    usedShares (malleateTxs 8 (scenario 0 1 2000)).1 (malleateTxs 8 (scenario 0 1 2000)).2 = 12 ∧
    12 ≤ 4 * 4 ∧ (4 : Nat) = 2 ^ 2 ∧ MinSquareSize ≤ 4 ∧ 4 ≤ MaxSquareSize ∧ (4 : Nat) < 8 := by
  have hreq : requiredShares (scenario 0 1 2000) 0 = 20 := by
    rw [requiredShares_scenario]
    norm_num [ceilDiv, TxShareSize, MsgShareSize, ShareSize, NamespaceSize, ShareReservedBytes]
  have hfst : (estimateSquareSize (scenario 0 1 2000) 0).1 = 8 := by
    rw [estimate_fst, hreq]
    norm_num
  have hrun : pipeline 1 (scenario 0 1 2000) 0 = some (8, scenario 0 1 2000) := by
    simp only [pipeline, hfst, hreq]
    norm_num
  have hused : usedShares (malleateTxs 8 (scenario 0 1 2000)).1
      (malleateTxs 8 (scenario 0 1 2000)).2 = 12 := by
    show usedShares [List.replicate 500 1] [Message.mk 1 (List.replicate 2000 2)] = 12
    unfold usedShares
    rw [splitTxs_length, splitMsgs_length]
    simp only [List.map_cons, List.map_nil, List.sum_cons, List.sum_nil, List.length_replicate]
    norm_num [ceilDiv, TxShareSize, MsgShareSize, ShareSize, NamespaceSize, ShareReservedBytes]
  refine ⟨hrun, hused, by norm_num, by norm_num, by norm_num [MinSquareSize], by
    norm_num [MaxSquareSize], by norm_num⟩

/-- C3: whenever the finalized content fits the chosen square, the layout
assembler emits exactly squareSize * squareSize shares, laid out as the
compact shares, then the sparse shares, then explicit padding shares. -/
theorem c3_layout_emits_square (d : BlockData)
    (h : usedShares d.txs d.msgs ≤ d.squareSize * d.squareSize) :
    ∃ shs, Split d = some shs ∧
      shs.length = d.squareSize * d.squareSize ∧
      shs = splitTxs d.txs ++ splitMsgs d.msgs ++
        List.replicate (d.squareSize * d.squareSize - usedShares d.txs d.msgs) Share.padding ∧
      (∀ x ∈ splitTxs d.txs, ∃ c, x = Share.compact c) ∧
      (∀ x ∈ splitMsgs d.msgs, ∃ ns c, x = Share.sparse ns c) := by
  refine ⟨_, Split_eq_some d h, ?_, rfl, splitTxs_all_compact _, splitMsgs_all_sparse _⟩
  rw [List.length_append, List.length_append, List.length_replicate]
  unfold usedShares at h ⊢
  omega

/-- Witness for C3: a two-by-two square holding one small transaction. -/
theorem c3_layout_witness :
    usedShares [[5]] [] ≤ 2 * 2 ∧
    (∃ shs, Split (BlockData.mk 2 [[5]] []) = some shs ∧
      shs.length = 2 * 2 ∧
      shs = splitTxs [[5]] ++ splitMsgs [] ++
        List.replicate (2 * 2 - usedShares [[5]] []) Share.padding ∧
      (∀ x ∈ splitTxs [[5]], ∃ c, x = Share.compact c) ∧
      (∀ x ∈ splitMsgs [], ∃ ns c, x = Share.sparse ns c)) :=
  ⟨by decide, c3_layout_emits_square (BlockData.mk 2 [[5]] []) (by decide)⟩

/-- C4: whenever pruning is invoked (required shares exceed the capacity of
the candidate size, while the opaque evidence alone does fit), the pruner
returns a strictly shorter sequence, namely the longest fitting initial
segment of the priority-ordered input: removal happens from the lowest
priority end, stably, a removed blob transaction takes its message's share
cost with it, and the kept content is the maximal feasible subset under the
priority order. -/
theorem c4_prune_spec (txs : List ParsedTx) (evd s : Nat)
    (hevd : evd ≤ s * s)
    (hinv : s * s < requiredShares txs evd)
    (hsorted : txs.Pairwise (fun a b => b.priority ≤ a.priority)) :
    (prune txs evd s).length < txs.length ∧
    ∃ k, prune txs evd s = txs.take k ∧
      requiredShares (txs.take k) evd ≤ s * s ∧
      (∀ j, j ≤ txs.length → requiredShares (txs.take j) evd ≤ s * s → j ≤ k) ∧
      (∀ a ∈ txs.take k, ∀ b ∈ txs.drop k, b.priority ≤ a.priority) := by
  obtain ⟨k, hk, heq, hfits, hmax⟩ := prune_eq_take txs evd s hevd
  have hklt : k < txs.length := by
    rcases Nat.lt_or_ge k txs.length with h | h
    · exact h
    · exfalso
      have hkeq : k = txs.length := by omega
      rw [hkeq, List.take_length] at hfits
      omega
  constructor
  · rw [heq, List.length_take]
    omega
  refine ⟨k, heq, hfits, hmax, ?_⟩
  intro a ha b hb
  rw [← List.take_append_drop k txs] at hsorted
  obtain ⟨_, _, hcross⟩ := List.pairwise_append.mp hsorted
  exact hcross a ha b hb

/-- Witness for C4: ten plain transactions overflow a size 2 square and get
pruned to the longest fitting initial segment. -/
theorem c4_prune_witness :
    ((0 : Nat) ≤ 2 * 2 ∧ 2 * 2 < requiredShares (scenario 10 0 0) 0 ∧
      (scenario 10 0 0).Pairwise (fun a b => b.priority ≤ a.priority)) ∧
    ((prune (scenario 10 0 0) 0 2).length < (scenario 10 0 0).length ∧
      ∃ k, prune (scenario 10 0 0) 0 2 = (scenario 10 0 0).take k ∧
        requiredShares ((scenario 10 0 0).take k) 0 ≤ 2 * 2 ∧
        (∀ j, j ≤ (scenario 10 0 0).length →
          requiredShares ((scenario 10 0 0).take j) 0 ≤ 2 * 2 → j ≤ k) ∧
        (∀ a ∈ (scenario 10 0 0).take k, ∀ b ∈ (scenario 10 0 0).drop k,
          b.priority ≤ a.priority)) := by
  have h1 : (0 : Nat) ≤ 2 * 2 := by norm_num
  have h2 : 2 * 2 < requiredShares (scenario 10 0 0) 0 := by
    rw [requiredShares_scenario]
    norm_num [ceilDiv, TxShareSize, MsgShareSize, ShareSize, NamespaceSize, ShareReservedBytes]
  have h3 : (scenario 10 0 0).Pairwise (fun a b => b.priority ≤ a.priority) := by
    decide
  exact ⟨⟨h1, h2, h3⟩, c4_prune_spec (scenario 10 0 0) 0 2 h1 h2 h3⟩

/-- C5: the block square constructor consults nothing in the ambient
environment: two runs under any two environments (wall clock, randomness,
iteration-order seed) on the same ordered input produce identical square
size, transaction list, message list and share sequence. -/
theorem c5_deterministic (e₁ e₂ : Env) (txs : List ParsedTx) (evd : Nat) :
    buildBlock e₁ txs evd = buildBlock e₂ txs evd := rfl

/-- C7: for finalized content that fits its square, splitting into shares via
the layout assembler and re-parsing those shares reconstructs the finalized
transaction byte strings and message payloads exactly. -/
theorem c7_roundtrip (d : BlockData) (hne : ∀ t ∈ d.txs, t ≠ [])
    (hfit : usedShares d.txs d.msgs ≤ d.squareSize * d.squareSize) :
    ∃ shs, Split d = some shs ∧ parseTxShares shs = d.txs ∧ parseMsgShares shs = d.msgs := by
  refine ⟨_, Split_eq_some d hfit, ?_, ?_⟩
  · exact parseTxShares_layout d.txs d.msgs _ hne
  · exact parseMsgShares_layout d.txs d.msgs _

/-- Witness for C7: a two-by-two square with one transaction and one message
round-trips. -/
theorem c7_roundtrip_witness :
    ((∀ t ∈ [[7, 8]], t ≠ ([] : List Nat)) ∧
      usedShares [[7, 8]] [Message.mk 3 [9]] ≤ 2 * 2) ∧
    (∃ shs, Split (BlockData.mk 2 [[7, 8]] [Message.mk 3 [9]]) = some shs ∧
      parseTxShares shs = [[7, 8]] ∧ parseMsgShares shs = [Message.mk 3 [9]]) :=
  ⟨⟨by decide, by decide⟩,
    c7_roundtrip (BlockData.mk 2 [[7, 8]] [Message.mk 3 [9]]) (by decide) (by decide)⟩

/-- C8: the estimate, malleate, prune pipeline is idempotent: a successful
run's output is a fixed point — re-running the pipeline on the output
immediately returns the same square size and the same content with any
positive fuel, and the pruner removes nothing from it. -/
theorem c8_idempotent (txs out : List ParsedTx) (evd fuel s : Nat)
    (h : pipeline fuel txs evd = some (s, out)) :
    (∀ g, pipeline (g + 1) out evd = some (s, out)) ∧ prune out evd s = out := by
  obtain ⟨hs, hfit⟩ := pipeline_sound evd fuel txs s out h
  constructor
  · intro g
    simp only [pipeline]
    rw [← hs, if_pos hfit]
  · exact prune_self_of_fits out evd s hfit

/-- Witness for C8: the square size 4 run on one 400 byte blob transaction is
a fixed point of the pipeline. -/
theorem c8_idempotent_witness :
    pipeline 1 (scenario 0 1 400) 0 = some (4, scenario 0 1 400) ∧
    ((∀ g, pipeline (g + 1) (scenario 0 1 400) 0 = some (4, scenario 0 1 400)) ∧
      prune (scenario 0 1 400) 0 4 = scenario 0 1 400) := by
  have hreq : requiredShares (scenario 0 1 400) 0 = 6 := by
    rw [requiredShares_scenario]
    norm_num [ceilDiv, TxShareSize, MsgShareSize, ShareSize, NamespaceSize, ShareReservedBytes]
  have hfst : (estimateSquareSize (scenario 0 1 400) 0).1 = 4 := by
    rw [estimate_fst, hreq]
    norm_num
  have hrun : pipeline 1 (scenario 0 1 400) 0 = some (4, scenario 0 1 400) := by
    simp only [pipeline, hfst, hreq]
    norm_num
  exact ⟨hrun, c8_idempotent (scenario 0 1 400) (scenario 0 1 400) 0 1 4 hrun⟩

/-- C9: the compact shares actually produced by splitting the malleated
transactions never exceed the estimator's calculated contiguous share count
for the parsed transactions, which prices every transaction at its full wire
size. -/
theorem c9_contig_estimate_bound (txs : List ParsedTx) (evd s : Nat) :
    (splitTxs (malleateTxs s txs).1).length ≤ calculateContigShareCount txs evd s := by
  show (splitTxs (txs.map (fun t => t.base))).length ≤ calculateContigShareCount txs evd s
  rw [splitTxs_length]
  unfold calculateContigShareCount compactShareCount
  have h := ceilDiv_le_ceilDiv TxShareSize (malleated_compact_le txs)
  omega

/-- C10: sorting an InternalBridgeValidators set whose EVM address hex
strings are pairwise distinct yields a permutation on which every adjacent
pair is strictly ordered — greater power first, ties broken by ascending
address hex byte order — and that ordering characterizes the output uniquely
among permutations of the input. -/
theorem c10_sort_deterministic (l : List InternalBridgeValidator)
    (hdist : l.Pairwise (fun a b => a.EVMAddressHex ≠ b.EVMAddressHex)) :
    (sortValidators l).Perm l ∧
    (sortValidators l).Chain' validatorStrictBefore ∧
    (∀ l', l'.Perm l → l'.Chain' validatorStrictBefore → l' = sortValidators l) := by
  have hperm : (sortValidators l).Perm l := List.perm_insertionSort validatorBefore l
  have hsorted : (sortValidators l).Sorted validatorBefore :=
    List.sorted_insertionSort validatorBefore l
  have hdist' : (sortValidators l).Pairwise (fun a b => a.EVMAddressHex ≠ b.EVMAddressHex) :=
    (hperm.pairwise_iff (fun h => Ne.symm h)).mpr hdist
  have hstrict : (sortValidators l).Pairwise validatorStrictBefore :=
    (hsorted.and hdist').imp (fun h => validatorStrictBefore_of_before _ _ h.1 h.2)
  refine ⟨hperm, hstrict.chain', ?_⟩
  intro l' hp hc
  have hl'p : l'.Pairwise validatorStrictBefore := List.chain'_iff_pairwise.mp hc
  have hl'sorted : l'.Sorted validatorBefore :=
    hl'p.imp (fun h => validatorBefore_of_strict _ _ h)
  exact List.eq_of_perm_of_sorted (hp.trans hperm.symm) hl'sorted hsorted

/-- Witness for C10: three validators with distinct addresses, one power tie,
sort into the unique strictly ordered arrangement. -/
theorem c10_sort_witness :
    ([InternalBridgeValidator.mk 5 [65], InternalBridgeValidator.mk 7 [66],
      InternalBridgeValidator.mk 5 [64]].Pairwise
        (fun a b => a.EVMAddressHex ≠ b.EVMAddressHex)) ∧
    ((sortValidators [InternalBridgeValidator.mk 5 [65], InternalBridgeValidator.mk 7 [66],
        InternalBridgeValidator.mk 5 [64]]).Perm
      [InternalBridgeValidator.mk 5 [65], InternalBridgeValidator.mk 7 [66],
        InternalBridgeValidator.mk 5 [64]] ∧
      (sortValidators [InternalBridgeValidator.mk 5 [65], InternalBridgeValidator.mk 7 [66],
        InternalBridgeValidator.mk 5 [64]]).Chain' validatorStrictBefore ∧
      (∀ l', l'.Perm [InternalBridgeValidator.mk 5 [65], InternalBridgeValidator.mk 7 [66],
          InternalBridgeValidator.mk 5 [64]] →
        l'.Chain' validatorStrictBefore →
        l' = sortValidators [InternalBridgeValidator.mk 5 [65],
          InternalBridgeValidator.mk 7 [66], InternalBridgeValidator.mk 5 [64]])) :=
  ⟨by decide,
    c10_sort_deterministic
      [InternalBridgeValidator.mk 5 [65], InternalBridgeValidator.mk 7 [66],
        InternalBridgeValidator.mk 5 [64]] (by decide)⟩

end Celestia
